import Mathlib

/-!
Verification of the MultiMeshExport add-in's bookkeeping logic.

The definitions below are a shallow embedding of `MultiMeshExport.py`:
the filename sanitizer, the settings load/merge/save cycle, the
destination-name collision resolution, the two phases of the export
batch (pre-export cleanup and the export loop), the validation gate,
the select-all synchronisation, and the input-changed re-entrancy guard.
Host-side effects (the filesystem, the mesh exporter, the cancel button)
are modelled as explicit parameters: a `present`/`removeOk` view of the
filesystem, an `exportRes` outcome function for the mesh exporter, and a
`cancelAt` polling function for the progress dialog.
-/

namespace MultiMeshExport

/-- The characters removed by `_safe_filename` (the Python raw string
`r'\/:*?"<>|'`). -/
def illegalChars : List Char := ['\\', '/', ':', '*', '?', '"', '<', '>', '|']

/-- ASCII whitespace, as stripped by Python's `str.strip()`. -/
def isPySpace (c : Char) : Bool :=
  c == ' ' || c == '\t' || c == '\n' || c == '\x0b' || c == '\x0c' || c == '\r'

/-- Python `str.strip()`: drop leading and trailing whitespace. -/
def pyStrip (l : List Char) : List Char :=
  ((l.dropWhile isPySpace).reverse.dropWhile isPySpace).reverse

/-- `_safe_filename`: keep only legal characters, strip surrounding
whitespace, and fall back to `'body'` when the result is empty
(`''.join(c for c in name if c not in r'\/:*?"<>|').strip() or 'body'`). -/
def safe_filename (name : String) : String :=
  let kept := name.toList.filter (fun c => decide (c ∉ illegalChars))
  let stripped := pyStrip kept
  if stripped.isEmpty then "body" else String.mk stripped

/-- A parsed settings JSON object: a flat key-value mapping. -/
def SettingsMap : Type := String → Option String

/-- Python `dict.update` folded over the entries of `data`
(later entries win). -/
def dictUpdate (m : SettingsMap) (data : List (String × String)) : SettingsMap :=
  data.foldl (fun acc kv => fun k => if k = kv.1 then some kv.2 else acc k) m

/-- `_load_settings`: parse the settings file; any read or parse failure
(`disk = none`) yields the empty mapping. -/
def load_settings (disk : Option SettingsMap) : SettingsMap :=
  disk.getD (fun _ => none)

/-- `_save_settings`: load the current settings, merge `data` into them,
and write the result back. -/
def save_settings (data : List (String × String)) (disk : Option SettingsMap) :
    Option SettingsMap :=
  some (dictUpdate (load_settings disk) data)

/-- Python `'{} ({})'.format(n, idx)`: the parenthesized-index form used
for colliding names. -/
def fmtIndexed (n : String) (idx : Nat) : String :=
  n ++ " (" ++ Nat.repr idx ++ ")"

/-- The `name_count` loop of `_OnExecute.notify`: occurrence count of each
raw name across the batch (`name_count[n] = name_count.get(n, 0) + 1`). -/
def buildCount (raw : List String) : String → Nat :=
  raw.foldl (fun m n => fun k => if k = n then m n + 1 else m k) (fun _ => 0)

/-- The `name_idx` / `export_jobs` loop of `_OnExecute.notify`: walk the raw
names in body-list order; a name occurring more than once in the batch gets
its running 1-based occurrence index appended, a unique name is unchanged. -/
def buildDest (nameCount : String → Nat) : (String → Nat) → List String → List String
  | _, [] => []
  | nameIdx, n :: rest =>
    let idx := nameIdx n + 1
    let fname := if nameCount n > 1 then fmtIndexed n idx else n
    fname :: buildDest nameCount (fun m => if m = n then idx else nameIdx m) rest

/-- Collision resolution over the batch's raw sanitized names. -/
def resolveNames (raw : List String) : List String :=
  buildDest (buildCount raw) (fun _ => 0) raw

/-- The destination filenames of the batch: resolved name plus the fixed
`.stl` extension. -/
def destinations (raw : List String) : List String :=
  (resolveNames raw).map (fun f => f ++ ".stl")

/-- A body, as far as the export loop observes it: its display name
(used in error entries). -/
structure Body where
  name : String
deriving DecidableEq

/-- Phase 1 of `_OnExecute.notify` (pre-export cleanup): for each job path,
if the file exists, try to remove it; a successful removal increments
`overwritten`, an `OSError` is swallowed (`pass`).  The filesystem is the
`present` predicate (threaded through, since removals change it) together
with `removeOk`, which says whether removing a given path succeeds.
Returns the final `overwritten` count and the final filesystem. -/
def phase1 (removeOk : String → Bool) : (String → Bool) → List String → Nat × (String → Bool)
  | present, [] => (0, present)
  | present, p :: rest =>
    if present p then
      if removeOk p then
        let r := phase1 removeOk (fun q => if q = p then false else present q) rest
        (r.1 + 1, r.2)
      else
        phase1 removeOk present rest
    else
      phase1 removeOk present rest

/-- Phase 2 of `_OnExecute.notify` (the export loop): iterate the jobs,
polling the cancel flag before each; on cancellation stop at once.
`exportRes b p = none` means the host export succeeds, `some msg` means it
raises with text `msg`; a raised export is caught and recorded as
`'{body.name}: {msg}'`.  Returns `(exported, errors, cancelled)`. -/
def phase2 (cancelAt : Nat → Bool) (exportRes : Body → String → Option String) :
    Nat → List (Body × String) → Nat × List String × Bool
  | _, [] => (0, [], false)
  | i, (b, p) :: rest =>
    if cancelAt i then (0, [], true)
    else
      match exportRes b p with
      | none =>
        let r := phase2 cancelAt exportRes (i + 1) rest
        (r.1 + 1, r.2.1, r.2.2)
      | some msg =>
        let r := phase2 cancelAt exportRes (i + 1) rest
        (r.1, (b.name ++ ": " ++ msg) :: r.2.1, r.2.2)

/-- The counters the summary reports. -/
structure Summary where
  exported : Nat
  overwritten : Nat
  errors : List String
  cancelled : Bool
deriving DecidableEq

/-- The execute step after job construction: phase 1 (cleanup) over the job
paths, then phase 2 (export) over the jobs, then the summary fields. -/
def executeBatch (present removeOk : String → Bool) (cancelAt : Nat → Bool)
    (exportRes : Body → String → Option String) (jobs : List (Body × String)) : Summary :=
  let p1 := phase1 removeOk present (jobs.map (fun j => j.2))
  let p2 := phase2 cancelAt exportRes 0 jobs
  ⟨p2.1, p1.1, p2.2.1, p2.2.2⟩

/-- The summary message lines built at the end of `_OnExecute.notify`. -/
def summaryMsg (outputDir : String) (s : Summary) : List String :=
  ["Exported: " ++ Nat.repr s.exported]
    ++ (if s.overwritten ≠ 0 then ["Overwritten: " ++ Nat.repr s.overwritten] else [])
    ++ (if s.errors ≠ [] then
          ("Errors:   " ++ Nat.repr s.errors.length) :: s.errors.map (fun e => "  • " ++ e)
        else [])
    ++ (if s.cancelled then ["\nExport cancelled by user."] else [])
    ++ ["\nLocation: " ++ outputDir]

/-- Successful exports among a job list, for a given outcome function. -/
def exportedOf (exportRes : Body → String → Option String) (l : List (Body × String)) : Nat :=
  l.countP (fun bp => (exportRes bp.1 bp.2).isNone)

/-- Error entries accumulated over a job list, in job order. -/
def errorsOf (exportRes : Body → String → Option String) (l : List (Body × String)) :
    List String :=
  l.filterMap (fun bp => (exportRes bp.1 bp.2).map (fun m => bp.1.name ++ ": " ++ m))

/-- `_OnValidateInputs.notify`: valid iff at least one body is selected and
`path.value.strip()` is non-empty. -/
def validateInputs (selectionCount : Nat) (outputPath : String) : Bool :=
  decide (selectionCount > 0) && decide ((pyStrip outputPath.toList).length > 0)

/-- The slice of dialog state the select-all synchronisation touches. -/
structure UIState where
  selCount : Nat
  checked : Bool
deriving DecidableEq

/-- The `bodySelection` branch of `_OnInputChanged.notify`: after a manual
selection change, the select-all checkbox is set to
`total > 0 and sel.selectionCount == total`. -/
def onManualSelectionChanged (total : Nat) (s : UIState) : UIState :=
  { s with checked := decide (total > 0) && decide (s.selCount = total) }

/-- The `selectAll`-toggled-true branch of `_OnInputChanged.notify`: every
addable body is added to the selection (failures skipped); the checkbox
itself keeps the value the user just gave it (`true`). -/
def onSelectAllToggledTrue (addable : Nat) (s : UIState) : UIState :=
  { s with selCount := addable }

/-- Outcome of a Python block: normal completion or a raised exception. -/
inductive PyResult (α : Type) where
  | ok : α → PyResult α
  | exn : String → PyResult α

/-- The `_updating` guard. -/
structure GuardState where
  updating : Bool
deriving DecidableEq

/-- One invocation of `_OnInputChanged.notify`: if the guard is set, return
at once (the change is ignored); otherwise set the guard, run the reaction
body (`bodyRaises` says whether it raises; the `except` clause catches and
shows a message box), and clear the guard in the `finally` clause.
Returns the final guard state and whether the reaction ran. -/
def inputChangedNotify (st : GuardState) (bodyRaises : Bool) : GuardState × Bool :=
  if st.updating then
    (st, false)
  else
    let stIn : GuardState := { updating := true }
    let stAfterBody : GuardState :=
      match (if bodyRaises then PyResult.exn "err" else PyResult.ok ()) with
      | .ok _ => stIn
      | .exn _ => stIn
    ({ stAfterBody with updating := false }, true)

/-- Numeric value of a decimal digit character. -/
def charVal (c : Char) : Nat := c.toNat - '0'.toNat

/-- Value of a big-endian list of decimal digit characters. -/
def listVal (l : List Char) : Nat := l.foldl (fun a c => 10 * a + charVal c) 0

/-! ### Lemmas about the sanitizer -/

theorem safe_filename_eq (name : String) :
    safe_filename name =
      if (pyStrip (name.toList.filter (fun c => decide (c ∉ illegalChars)))).isEmpty
      then "body"
      else String.mk (pyStrip (name.toList.filter (fun c => decide (c ∉ illegalChars)))) := rfl

theorem dropWhile_head_false {α : Type} {p : α → Bool} {l : List α} {b : α} {bt : List α}
    (h : l.dropWhile p = b :: bt) : p b = false := by
  induction l with
  | nil => simp [List.dropWhile] at h
  | cons a t ih =>
    rw [List.dropWhile_cons] at h
    by_cases ha : p a = true
    · rw [if_pos ha] at h
      exact ih h
    · rw [if_neg ha] at h
      injection h with h1 _
      subst h1
      simpa using ha

theorem dropWhile_self {α : Type} (p : α → Bool) (l : List α) :
    (l.dropWhile p).dropWhile p = l.dropWhile p := by
  cases h : l.dropWhile p with
  | nil => rfl
  | cons b bt =>
    have hb := dropWhile_head_false h
    rw [List.dropWhile_cons, hb]
    simp

theorem mem_pyStrip {c : Char} {l : List Char} (h : c ∈ pyStrip l) : c ∈ l := by
  unfold pyStrip at h
  rw [List.mem_reverse] at h
  have h2 := (List.dropWhile_sublist isPySpace).subset h
  rw [List.mem_reverse] at h2
  exact (List.dropWhile_sublist isPySpace).subset h2

theorem pyStrip_dropWhile (l : List Char) :
    (pyStrip l).dropWhile isPySpace = pyStrip l := by
  cases hB : pyStrip l with
  | nil => rfl
  | cons b bt =>
    have hpre : pyStrip l <+: l.dropWhile isPySpace := by
      have h1 := List.reverse_prefix.mpr
        (List.dropWhile_suffix (l := (l.dropWhile isPySpace).reverse) isPySpace)
      simpa [pyStrip] using h1
    obtain ⟨tr, htr⟩ := hpre
    rw [hB] at htr
    have hb : isPySpace b = false :=
      dropWhile_head_false (l := l) (by rw [← htr]; rfl)
    rw [List.dropWhile_cons, hb]
    simp

theorem pyStrip_idem (l : List Char) : pyStrip (pyStrip l) = pyStrip l := by
  have h1 : (pyStrip l).dropWhile isPySpace = pyStrip l := pyStrip_dropWhile l
  show (((pyStrip l).dropWhile isPySpace).reverse.dropWhile isPySpace).reverse = pyStrip l
  rw [h1]
  unfold pyStrip
  rw [List.reverse_reverse, dropWhile_self]

theorem pyStrip_eq_nil {l : List Char} (h : ∀ c ∈ l, isPySpace c = true) :
    pyStrip l = [] := by
  have h1 : l.dropWhile isPySpace = [] := List.dropWhile_eq_nil_iff.mpr h
  simp [pyStrip, h1]

/-- Claim C3: for every input string, the sanitized filename contains none of
the characters `\ / : * ? " < > |`, and an input consisting entirely of those
illegal characters yields the fallback literal `'body'`. -/
theorem claim_sanitizer_illegal :
    (∀ (s : String) (c : Char), c ∈ (safe_filename s).toList → c ∉ illegalChars)
    ∧ ∀ s : String, (∀ c ∈ s.toList, c ∈ illegalChars) → safe_filename s = "body" := by
  constructor
  · intro s c hc
    rw [safe_filename_eq] at hc
    by_cases he :
        (pyStrip (s.toList.filter (fun c => decide (c ∉ illegalChars)))).isEmpty = true
    · rw [if_pos he] at hc
      have hb : c ∈ ['b', 'o', 'd', 'y'] := hc
      fin_cases hb <;> decide
    · rw [if_neg he] at hc
      have hc2 : c ∈ pyStrip (s.toList.filter (fun c => decide (c ∉ illegalChars))) := hc
      have hc3 := mem_pyStrip hc2
      exact of_decide_eq_true (List.mem_filter.mp hc3).2
  · intro s h
    have hk : s.toList.filter (fun c => decide (c ∉ illegalChars)) = [] :=
      List.filter_eq_nil_iff.mpr (fun c hc => by simp [h c hc])
    rw [safe_filename_eq, hk]
    rfl

/-- Witness for C3: the all-illegal input `\/:*?"<>|` sanitizes to `body`. -/
theorem claim_sanitizer_illegal_witness :
    safe_filename "\\/:*?\"<>|" = "body" :=
  claim_sanitizer_illegal.2 "\\/:*?\"<>|" (by decide)

/-- Claim C10: the sanitizer also strips leading and trailing whitespace;
any input whose characters are all illegal or whitespace (including the
empty string) yields `'body'`; every sanitized name is non-empty and is
fixed by whitespace-stripping. -/
theorem claim_sanitizer_strip :
    (∀ s : String, safe_filename s ≠ "" ∧
        pyStrip (safe_filename s).toList = (safe_filename s).toList)
    ∧ (∀ s : String, (∀ c ∈ s.toList, c ∈ illegalChars ∨ isPySpace c = true) →
        safe_filename s = "body")
    ∧ safe_filename "" = "body" := by
  refine ⟨?_, ?_, rfl⟩
  · intro s
    rw [safe_filename_eq]
    by_cases he :
        (pyStrip (s.toList.filter (fun c => decide (c ∉ illegalChars)))).isEmpty = true
    · rw [if_pos he]
      exact ⟨by decide, rfl⟩
    · rw [if_neg he]
      constructor
      · intro h
        have hdata : pyStrip (s.toList.filter (fun c => decide (c ∉ illegalChars))) = [] :=
          congrArg String.data h
        rw [hdata] at he
        simp at he
      · exact pyStrip_idem _
  · intro s h
    have hnil : pyStrip (s.toList.filter (fun c => decide (c ∉ illegalChars))) = [] := by
      refine pyStrip_eq_nil ?_
      intro c hc
      have hm := List.mem_filter.mp hc
      rcases h c hm.1 with hi | hsp
      · exact absurd hi (of_decide_eq_true hm.2)
      · exact hsp
    rw [safe_filename_eq, hnil]
    rfl

/-- Witness for C10: an all-whitespace-and-illegal input (`" \ "`) yields
`body`, and a padded name is both stripped and non-empty. -/
theorem claim_sanitizer_strip_witness :
    safe_filename " \\  " = "body"
    ∧ (safe_filename "  a b " ≠ ""
        ∧ pyStrip (safe_filename "  a b ").toList = (safe_filename "  a b ").toList) :=
  ⟨claim_sanitizer_strip.2.1 " \\  " (by decide), claim_sanitizer_strip.1 "  a b "⟩

/-- Claim C6: the validation gate reports the inputs valid iff the
selected-body count is positive and the output-path text is non-empty after
trimming whitespace; the gate is a pure function of those two inputs, so no
filesystem check takes part. -/
theorem claim_validation_gate :
    ∀ (selectionCount : Nat) (outputPath : String),
      validateInputs selectionCount outputPath = true ↔
        (0 < selectionCount ∧ pyStrip outputPath.toList ≠ []) := by
  intro sc p
  simp [validateInputs, List.length_pos]

/-- Claim C7: settings save is a load-merge-write cycle; saving
`{outputPath: A}` and then `{other: B}` leaves both keys present, each with
the latest value written for it. -/
theorem claim_settings_merge :
    ∀ (disk : Option SettingsMap) (A B : String),
      load_settings (save_settings [("other", B)] (save_settings [("outputPath", A)] disk))
          "outputPath" = some A
      ∧ load_settings (save_settings [("other", B)] (save_settings [("outputPath", A)] disk))
          "other" = some B := by
  intro disk A B
  constructor <;> simp [load_settings, save_settings, dictUpdate]

/-- Claim C8: after a manual selection change the select-all checkbox is
checked iff the selection count equals the (positive) total body count;
hence selecting all N bodies individually yields the same checked state as
clicking select-all. -/
theorem claim_selectall_sync :
    (∀ (total : Nat) (s : UIState),
        (onManualSelectionChanged total s).checked = true ↔
          (0 < total ∧ s.selCount = total))
    ∧ ∀ (N sc : Nat) (c : Bool), 0 < N →
        (onManualSelectionChanged N ⟨N, c⟩).checked =
          (onSelectAllToggledTrue N ⟨sc, true⟩).checked := by
  constructor
  · intro total s
    simp [onManualSelectionChanged]
  · intro N sc c hN
    simp [onManualSelectionChanged, onSelectAllToggledTrue, hN]

/-- Witness for C8 at N = 3: three individually selected bodies give the
same checked state as the select-all click. -/
theorem claim_selectall_sync_witness :
    (onManualSelectionChanged 3 ⟨3, false⟩).checked =
      (onSelectAllToggledTrue 3 ⟨0, true⟩).checked :=
  claim_selectall_sync.2 3 0 false (by decide)

/-- Claim C9: the `_updating` guard is cleared on every exit path of the
input-changed handler (the reaction body raising included), so an input
change arriving after a completed invocation always reacts; an invocation is
ignored only when the guard was already set at entry. -/
theorem claim_reentrancy_guard :
    ∀ (st : GuardState) (r₁ r₂ : Bool), st.updating = false →
      ((inputChangedNotify st r₁).1.updating = false
        ∧ (inputChangedNotify st r₁).2 = true
        ∧ (inputChangedNotify (inputChangedNotify st r₁).1 r₂).2 = true)
      ∧ ∀ (s : GuardState) (r : Bool),
          (inputChangedNotify s r).2 = false → s.updating = true := by
  intro st r₁ r₂ h
  constructor
  · simp [inputChangedNotify, h]
  · intro s r hs
    by_cases hu : s.updating = true
    · exact hu
    · rw [Bool.not_eq_true] at hu
      simp [inputChangedNotify, hu] at hs

/-- Witness for C9: starting from a clear guard, a raising reaction still
leaves the guard clear and the next change reacts. -/
theorem claim_reentrancy_guard_witness :
    ((inputChangedNotify ⟨false⟩ true).1.updating = false
      ∧ (inputChangedNotify ⟨false⟩ true).2 = true
      ∧ (inputChangedNotify (inputChangedNotify ⟨false⟩ true).1 false).2 = true)
    ∧ ∀ (s : GuardState) (r : Bool),
        (inputChangedNotify s r).2 = false → s.updating = true :=
  claim_reentrancy_guard ⟨false⟩ true false rfl

/-! ### Lemmas about the export phases -/

theorem errorsOf_length (res : Body → String → Option String) (l : List (Body × String)) :
    (errorsOf res l).length = l.countP (fun bp => (res bp.1 bp.2).isSome) := by
  induction l with
  | nil => rfl
  | cons bp rest ih =>
    obtain ⟨b, p⟩ := bp
    cases hres : res b p <;>
      simp [errorsOf, List.filterMap_cons, List.countP_cons, hres, ih.symm, errorsOf]

theorem exportedOf_add (res : Body → String → Option String) (l : List (Body × String)) :
    exportedOf res l + l.countP (fun bp => (res bp.1 bp.2).isSome) = l.length := by
  induction l with
  | nil => rfl
  | cons bp rest ih =>
    obtain ⟨b, p⟩ := bp
    cases hres : res b p <;>
      (simp [exportedOf, List.countP_cons, hres] at ih ⊢; omega)

theorem phase2_no_cancel (cancelAt : Nat → Bool) (res : Body → String → Option String)
    (l : List (Body × String)) :
    ∀ start, (∀ i, i < l.length → cancelAt (start + i) = false) →
      phase2 cancelAt res start l = (exportedOf res l, errorsOf res l, false) := by
  induction l with
  | nil =>
    intro start _
    simp [phase2, exportedOf, errorsOf]
  | cons bp rest ih =>
    intro start h
    obtain ⟨b, p⟩ := bp
    have h0 : cancelAt start = false := by simpa using h 0 (by simp)
    have hrec := ih (start + 1) (fun i hi => by
      have h2 := h (i + 1) (by simpa using Nat.succ_lt_succ hi)
      have heq : start + (i + 1) = start + 1 + i := by omega
      rw [heq] at h2
      exact h2)
    cases hres : res b p with
    | none => simp [phase2, h0, hres, hrec, exportedOf, errorsOf, List.countP_cons]
    | some msg => simp [phase2, h0, hres, hrec, exportedOf, errorsOf, List.countP_cons]

theorem phase2_cancel (cancelAt : Nat → Bool) (res : Body → String → Option String) :
    ∀ (l : List (Body × String)) (start k : Nat), k < l.length →
      (∀ i, i < k → cancelAt (start + i) = false) → cancelAt (start + k) = true →
      phase2 cancelAt res start l
        = (exportedOf res (l.take k), errorsOf res (l.take k), true) := by
  intro l
  induction l with
  | nil =>
    intro start k hk
    simp at hk
  | cons bp rest ih =>
    intro start k hk hbefore hat
    obtain ⟨b, p⟩ := bp
    cases k with
    | zero =>
      have h0 : cancelAt start = true := by simpa using hat
      simp [phase2, h0, exportedOf, errorsOf]
    | succ k' =>
      have h0 : cancelAt start = false := by simpa using hbefore 0 (Nat.succ_pos _)
      have hrec := ih (start + 1) k' (by simpa using Nat.lt_of_succ_lt_succ hk)
        (fun i hi => by
          have h2 := hbefore (i + 1) (Nat.succ_lt_succ hi)
          have heq : start + (i + 1) = start + 1 + i := by omega
          rw [heq] at h2
          exact h2)
        (by
          have h2 := hat
          have heq : start + (k' + 1) = start + 1 + k' := by omega
          rw [heq] at h2
          exact h2)
      cases hres : res b p with
      | none => simp [phase2, h0, hres, hrec, exportedOf, errorsOf, List.countP_cons]
      | some msg => simp [phase2, h0, hres, hrec, exportedOf, errorsOf, List.countP_cons]

theorem phase1_spec (removeOk : String → Bool) (paths : List String) :
    ∀ present : String → Bool, paths.Nodup →
      (phase1 removeOk present paths).1
          = paths.countP (fun p => present p && removeOk p)
      ∧ ∀ q, (phase1 removeOk present paths).2 q
          = (present q && !(decide (q ∈ paths) && removeOk q)) := by
  induction paths with
  | nil =>
    intro present _
    simp [phase1]
  | cons p rest ih =>
    intro present h
    have hp : p ∉ rest := (List.nodup_cons.mp h).1
    have hrest : rest.Nodup := (List.nodup_cons.mp h).2
    by_cases hpr : present p = true
    · by_cases hrm : removeOk p = true
      · have ih2 := ih (fun q => if q = p then false else present q) hrest
        have hcong : rest.countP (fun x => (if x = p then false else present x) && removeOk x)
            = rest.countP (fun x => present x && removeOk x) := by
          refine List.countP_congr ?_
          intro x hx
          have hxp : x ≠ p := fun e => hp (e ▸ hx)
          simp [hxp]
        constructor
        · simp only [phase1, hpr, hrm, if_true]
          rw [ih2.1, hcong, List.countP_cons]
          simp [hpr, hrm]
        · intro q
          simp only [phase1, hpr, hrm, if_true]
          rw [ih2.2 q]
          by_cases hq : q = p
          · subst hq
            simp [hrm, hpr]
          · simp [hq]
      · have ih2 := ih present hrest
        constructor
        · simp only [phase1, hpr, hrm, if_true, if_false, Bool.false_eq_true]
          rw [ih2.1, List.countP_cons]
          simp [hrm]
        · intro q
          simp only [phase1, hpr, hrm, if_true, if_false, Bool.false_eq_true]
          rw [ih2.2 q]
          by_cases hq : q = p
          · subst hq
            simp [hrm, hpr]
          · simp [hq]
    · have ih2 := ih present hrest
      have hpr' : present p = false := by
        revert hpr
        cases present p <;> simp
      constructor
      · simp only [phase1, hpr', Bool.false_eq_true, if_false]
        rw [ih2.1, List.countP_cons]
        simp [hpr']
      · intro q
        simp only [phase1, hpr', Bool.false_eq_true, if_false]
        rw [ih2.2 q]
        by_cases hq : q = p
        · subst hq
          simp [hpr']
        · simp [hq]

/-- Claim C2 counterexample: one destination path exists (`present` is true)
and its deletion fails (`removeOk` is false); the claim predicts the failure
is counted into `overwritten` (giving 1), but the code swallows the
`OSError` without counting, giving 0. -/
theorem claim_cleanup_counterexample :
    (phase1 (fun _ => false) (fun _ => true) ["a.stl"]).1 = 0
    ∧ (phase1 (fun _ => false) (fun _ => true) ["a.stl"]).1 ≠ 1 := by
  exact ⟨rfl, by decide⟩

/-- Claim C2 (amended): during pre-export cleanup every existing destination
whose removal succeeds is deleted, a deletion failure is silently skipped
(not counted) and aborts nothing — the remaining deletions still run and the
export phase is unaffected — and `overwritten` counts exactly the successful
deletions. -/
theorem claim_cleanup_amended (present removeOk : String → Bool) (paths : List String)
    (h : paths.Nodup) :
    (phase1 removeOk present paths).1
        = paths.countP (fun p => present p && removeOk p)
    ∧ (∀ q, (phase1 removeOk present paths).2 q
        = (present q && !(decide (q ∈ paths) && removeOk q)))
    ∧ ∀ (cancelAt : Nat → Bool) (res : Body → String → Option String)
        (jobs : List (Body × String)),
        (executeBatch present removeOk cancelAt res jobs).exported
            = (phase2 cancelAt res 0 jobs).1
        ∧ (executeBatch present removeOk cancelAt res jobs).errors
            = (phase2 cancelAt res 0 jobs).2.1
        ∧ (executeBatch present removeOk cancelAt res jobs).overwritten
            = (phase1 removeOk present (jobs.map (fun j => j.2))).1 := by
  exact ⟨(phase1_spec removeOk paths present h).1,
    (phase1_spec removeOk paths present h).2,
    fun _ _ _ => ⟨rfl, rfl, rfl⟩⟩

/-- Witness for C2 (amended) on a concrete filesystem: `a.stl` and `b.stl`
exist, only `a.stl` can be removed; one deletion is counted and `b.stl` is
still present afterwards. -/
theorem claim_cleanup_amended_witness :
    (phase1 (fun p => p == "a.stl") (fun p => p == "a.stl" || p == "b.stl")
        ["a.stl", "b.stl", "c.stl"]).1 = 1
    ∧ (phase1 (fun p => p == "a.stl") (fun p => p == "a.stl" || p == "b.stl")
        ["a.stl", "b.stl", "c.stl"]).2 "b.stl" = true :=
  ⟨((claim_cleanup_amended (fun p => p == "a.stl" || p == "b.stl") (fun p => p == "a.stl")
      ["a.stl", "b.stl", "c.stl"] (by decide)).1).trans (by decide),
   ((claim_cleanup_amended (fun p => p == "a.stl" || p == "b.stl") (fun p => p == "a.stl")
      ["a.stl", "b.stl", "c.stl"] (by decide)).2.1 "b.stl").trans (by decide)⟩

/-- Claim C4: the cancel flag is polled before each job; once it is observed
(at job index `k`, after the first `k` jobs ran uncancelled) the loop stops:
only the first `k` jobs are exported or recorded, the summary carries the
cancellation flag and its message holds the cancellation notice.  The final
conjunct is the spec's scenario: cancellation flagged after 2 of 5 jobs
gives 2 exported, no error entries, and the cancelled flag. -/
theorem claim_cancellation (present removeOk : String → Bool) (cancelAt : Nat → Bool)
    (res : Body → String → Option String) (jobs : List (Body × String))
    (outputDir : String) (k : Nat) (hk : k < jobs.length)
    (hbefore : ∀ i, i < k → cancelAt i = false) (hat : cancelAt k = true) :
    (executeBatch present removeOk cancelAt res jobs).exported = exportedOf res (jobs.take k)
    ∧ (executeBatch present removeOk cancelAt res jobs).errors = errorsOf res (jobs.take k)
    ∧ (executeBatch present removeOk cancelAt res jobs).cancelled = true
    ∧ "\nExport cancelled by user."
        ∈ summaryMsg outputDir (executeBatch present removeOk cancelAt res jobs)
    ∧ executeBatch (fun _ => false) (fun _ => true) (fun i => decide (2 ≤ i))
        (fun _ _ => none)
        [(⟨"B1"⟩, "p1"), (⟨"B2"⟩, "p2"), (⟨"B3"⟩, "p3"), (⟨"B4"⟩, "p4"), (⟨"B5"⟩, "p5")]
      = ⟨2, 0, [], true⟩ := by
  have h2 := phase2_cancel cancelAt res jobs 0 k hk
    (fun i hi => by simpa using hbefore i hi) (by simpa using hat)
  refine ⟨?_, ?_, ?_, ?_, by decide⟩
  · simp [executeBatch, h2]
  · simp [executeBatch, h2]
  · simp [executeBatch, h2]
  · simp [executeBatch, summaryMsg, h2]

/-- Witness for C4: the 5-job batch with cancellation flagged from index 2
exports exactly the 2 jobs before the flag and ends cancelled. -/
theorem claim_cancellation_witness :
    (executeBatch (fun _ => false) (fun _ => true) (fun i => decide (2 ≤ i))
        (fun _ _ => none)
        [(⟨"B1"⟩, "p1"), (⟨"B2"⟩, "p2"), (⟨"B3"⟩, "p3"), (⟨"B4"⟩, "p4"), (⟨"B5"⟩, "p5")]).exported
      = 2
    ∧ (executeBatch (fun _ => false) (fun _ => true) (fun i => decide (2 ≤ i))
        (fun _ _ => none)
        [(⟨"B1"⟩, "p1"), (⟨"B2"⟩, "p2"), (⟨"B3"⟩, "p3"), (⟨"B4"⟩, "p4"), (⟨"B5"⟩, "p5")]).cancelled
      = true :=
  ⟨((claim_cancellation (fun _ => false) (fun _ => true) (fun i => decide (2 ≤ i))
      (fun _ _ => none)
      [(⟨"B1"⟩, "p1"), (⟨"B2"⟩, "p2"), (⟨"B3"⟩, "p3"), (⟨"B4"⟩, "p4"), (⟨"B5"⟩, "p5")]
      "D" 2 (by decide)
      (fun i hi => decide_eq_false (by omega))
      (by decide)).1).trans (by decide),
   (claim_cancellation (fun _ => false) (fun _ => true) (fun i => decide (2 ≤ i))
      (fun _ _ => none)
      [(⟨"B1"⟩, "p1"), (⟨"B2"⟩, "p2"), (⟨"B3"⟩, "p3"), (⟨"B4"⟩, "p4"), (⟨"B5"⟩, "p5")]
      "D" 2 (by decide)
      (fun i hi => decide_eq_false (by omega))
      (by decide)).2.2.1⟩

/-- Claim C5: with no cancellation, a batch in which exactly one export
raises finishes completely: N-1 jobs exported, exactly one error entry, and
every error entry is the failing body's name joined with the error text. -/
theorem claim_perjob_errors (present removeOk : String → Bool) (cancelAt : Nat → Bool)
    (res : Body → String → Option String) (jobs : List (Body × String))
    (hnc : ∀ i, i < jobs.length → cancelAt i = false)
    (hone : jobs.countP (fun bp => (res bp.1 bp.2).isSome) = 1) :
    (executeBatch present removeOk cancelAt res jobs).exported + 1 = jobs.length
    ∧ (executeBatch present removeOk cancelAt res jobs).errors.length = 1
    ∧ (executeBatch present removeOk cancelAt res jobs).cancelled = false
    ∧ ∀ e ∈ (executeBatch present removeOk cancelAt res jobs).errors,
        ∃ bp, bp ∈ jobs ∧ ∃ msg, res bp.1 bp.2 = some msg
          ∧ e = bp.1.name ++ ": " ++ msg := by
  have h2 := phase2_no_cancel cancelAt res jobs 0 (fun i hi => by simpa using hnc i hi)
  have hexp : (executeBatch present removeOk cancelAt res jobs).exported
      = exportedOf res jobs := by simp [executeBatch, h2]
  have herr : (executeBatch present removeOk cancelAt res jobs).errors
      = errorsOf res jobs := by simp [executeBatch, h2]
  have hcan : (executeBatch present removeOk cancelAt res jobs).cancelled = false := by
    simp [executeBatch, h2]
  refine ⟨?_, ?_, hcan, ?_⟩
  · rw [hexp]
    have hadd := exportedOf_add res jobs
    rw [hone] at hadd
    exact hadd
  · rw [herr, errorsOf_length, hone]
  · intro e he
    rw [herr] at he
    obtain ⟨bp, hbp, hmap⟩ := List.mem_filterMap.mp he
    cases hres : res bp.1 bp.2 with
    | none =>
      rw [hres] at hmap
      simp at hmap
    | some msg =>
      rw [hres] at hmap
      simp at hmap
      exact ⟨bp, hbp, msg, hres, hmap.symm⟩

/-- Witness for C5: of three jobs only body `B` raises (`boom`); two export,
one error entry is produced, and the batch completes uncancelled. -/
theorem claim_perjob_errors_witness :
    (executeBatch (fun _ => false) (fun _ => true) (fun _ => false)
        (fun b _ => if b.name == "B" then some "boom" else none)
        [(⟨"A"⟩, "pa"), (⟨"B"⟩, "pb"), (⟨"C"⟩, "pc")]).exported + 1 = 3
    ∧ (executeBatch (fun _ => false) (fun _ => true) (fun _ => false)
        (fun b _ => if b.name == "B" then some "boom" else none)
        [(⟨"A"⟩, "pa"), (⟨"B"⟩, "pb"), (⟨"C"⟩, "pc")]).errors.length = 1
    ∧ (executeBatch (fun _ => false) (fun _ => true) (fun _ => false)
        (fun b _ => if b.name == "B" then some "boom" else none)
        [(⟨"A"⟩, "pa"), (⟨"B"⟩, "pb"), (⟨"C"⟩, "pc")]).cancelled = false :=
  ⟨(claim_perjob_errors (fun _ => false) (fun _ => true) (fun _ => false)
      (fun b _ => if b.name == "B" then some "boom" else none)
      [(⟨"A"⟩, "pa"), (⟨"B"⟩, "pb"), (⟨"C"⟩, "pc")] (fun _ _ => rfl) (by decide)).1,
   (claim_perjob_errors (fun _ => false) (fun _ => true) (fun _ => false)
      (fun b _ => if b.name == "B" then some "boom" else none)
      [(⟨"A"⟩, "pa"), (⟨"B"⟩, "pb"), (⟨"C"⟩, "pc")] (fun _ _ => rfl) (by decide)).2.1,
   (claim_perjob_errors (fun _ => false) (fun _ => true) (fun _ => false)
      (fun b _ => if b.name == "B" then some "boom" else none)
      [(⟨"A"⟩, "pa"), (⟨"B"⟩, "pb"), (⟨"C"⟩, "pc")] (fun _ _ => rfl) (by decide)).2.2.1⟩

/-! ### Decimal representation facts (for the parenthesized-index format) -/

theorem digitChar_isDigit (k : Nat) (hk : k < 10) : (Nat.digitChar k).isDigit = true := by
  interval_cases k <;> decide

theorem charVal_digitChar (k : Nat) (hk : k < 10) : charVal (Nat.digitChar k) = k := by
  interval_cases k <;> decide

theorem toDigitsCore_append (b : Nat) :
    ∀ (fuel n : Nat) (ds : List Char),
      Nat.toDigitsCore b fuel n ds = Nat.toDigitsCore b fuel n [] ++ ds := by
  intro fuel
  induction fuel with
  | zero =>
    intro n ds
    simp [Nat.toDigitsCore]
  | succ f ih =>
    intro n ds
    simp only [Nat.toDigitsCore]
    by_cases h : n / b = 0
    · simp [h]
    · rw [if_neg h, if_neg h, ih (n / b) (Nat.digitChar (n % b) :: ds),
        ih (n / b) [Nat.digitChar (n % b)], List.append_assoc]
      simp

theorem toDigitsCore_digits :
    ∀ (fuel n : Nat) (ds : List Char), (∀ c ∈ ds, c.isDigit = true) →
      ∀ c ∈ Nat.toDigitsCore 10 fuel n ds, c.isDigit = true := by
  intro fuel
  induction fuel with
  | zero =>
    intro n ds hds
    simpa [Nat.toDigitsCore] using hds
  | succ f ih =>
    intro n ds hds c hc
    have hd : (Nat.digitChar (n % 10)).isDigit = true :=
      digitChar_isDigit _ (Nat.mod_lt _ (by omega))
    have hcons : ∀ x ∈ Nat.digitChar (n % 10) :: ds, x.isDigit = true := by
      intro x hx
      rcases List.mem_cons.mp hx with rfl | hx2
      · exact hd
      · exact hds x hx2
    simp only [Nat.toDigitsCore] at hc
    by_cases h : n / 10 = 0
    · rw [if_pos h] at hc
      exact hcons c hc
    · rw [if_neg h] at hc
      exact ih (n / 10) (Nat.digitChar (n % 10) :: ds) hcons c hc

theorem listVal_append (l : List Char) (c : Char) :
    listVal (l ++ [c]) = 10 * listVal l + charVal c := by
  simp [listVal, List.foldl_append]

theorem toDigitsCore_val :
    ∀ (fuel n : Nat), n < fuel → listVal (Nat.toDigitsCore 10 fuel n []) = n := by
  intro fuel
  induction fuel with
  | zero =>
    intro n h
    exact absurd h (Nat.not_lt_zero n)
  | succ f ih =>
    intro n h
    simp only [Nat.toDigitsCore]
    by_cases h0 : n / 10 = 0
    · rw [if_pos h0]
      have hv := charVal_digitChar (n % 10) (Nat.mod_lt _ (by omega))
      simp [listVal, hv]
      omega
    · rw [if_neg h0]
      have hrec : n / 10 < f := by omega
      rw [toDigitsCore_append, listVal_append, ih (n / 10) hrec,
        charVal_digitChar (n % 10) (Nat.mod_lt _ (by omega))]
      omega

theorem repr_data_digits (n : Nat) : ∀ c ∈ (Nat.repr n).data, c.isDigit = true := by
  intro c hc
  exact toDigitsCore_digits (n + 1) n [] (by simp) c hc

theorem repr_injective {a b : Nat} (h : Nat.repr a = Nat.repr b) : a = b := by
  have hdata : Nat.toDigitsCore 10 (a + 1) a [] = Nat.toDigitsCore 10 (b + 1) b [] :=
    congrArg String.data h
  have ha := toDigitsCore_val (a + 1) a (by omega)
  have hb := toDigitsCore_val (b + 1) b (by omega)
  rw [hdata] at ha
  exact ha.symm.trans hb

/-! ### Injectivity of the collision format -/

theorem append_sandwich {α : Type} (p : α → Bool) :
    ∀ (xs₁ xs₂ : List α) (c : α) (ys₁ ys₂ : List α),
      (∀ a ∈ xs₁, p a = true) → (∀ a ∈ xs₂, p a = true) → p c = false →
      xs₁ ++ c :: ys₁ = xs₂ ++ c :: ys₂ → xs₁ = xs₂ ∧ ys₁ = ys₂ := by
  intro xs₁
  induction xs₁ with
  | nil =>
    intro xs₂ c ys₁ ys₂ h₁ h₂ hc h
    cases xs₂ with
    | nil => simpa using h
    | cons a t =>
      exfalso
      simp only [List.nil_append, List.cons_append, List.cons.injEq] at h
      obtain ⟨rfl, -⟩ := h
      rw [h₂ c (by simp)] at hc
      exact Bool.noConfusion hc
  | cons x xt ih =>
    intro xs₂ c ys₁ ys₂ h₁ h₂ hc h
    cases xs₂ with
    | nil =>
      exfalso
      simp only [List.nil_append, List.cons_append, List.cons.injEq] at h
      obtain ⟨rfl, -⟩ := h
      rw [h₁ x (by simp)] at hc
      exact Bool.noConfusion hc
    | cons a t =>
      simp only [List.cons_append, List.cons.injEq] at h
      obtain ⟨rfl, h2⟩ := h
      obtain ⟨he1, he2⟩ := ih t c ys₁ ys₂
        (fun u hu => h₁ u (by simp [hu])) (fun u hu => h₂ u (by simp [hu])) hc h2
      exact ⟨by rw [he1], he2⟩

theorem sep_digit_eq (a₁ a₂ D₁ D₂ : List Char)
    (hD₁ : ∀ c ∈ D₁, c.isDigit = true) (hD₂ : ∀ c ∈ D₂, c.isDigit = true)
    (h : a₁ ++ ([' ', '('] ++ (D₁ ++ [')'])) = a₂ ++ ([' ', '('] ++ (D₂ ++ [')']))) :
    a₁ = a₂ ∧ D₁ = D₂ := by
  have hrev := congrArg List.reverse h
  simp only [List.reverse_append, List.reverse_cons, List.reverse_nil, List.nil_append,
    List.append_assoc, List.singleton_append, List.cons_append] at hrev
  injection hrev with _ htail
  obtain ⟨hD, hrest⟩ := append_sandwich Char.isDigit D₁.reverse D₂.reverse '('
    (' ' :: a₁.reverse) (' ' :: a₂.reverse)
    (fun u hu => hD₁ u (List.mem_reverse.mp hu))
    (fun u hu => hD₂ u (List.mem_reverse.mp hu))
    (by decide) htail
  injection hrest with _ ha
  exact ⟨List.reverse_injective ha, List.reverse_injective hD⟩

theorem fmtIndexed_inj {n m : String} {i j : Nat}
    (h : fmtIndexed n i = fmtIndexed m j) : n = m ∧ i = j := by
  have e1 : " (".data = [' ', '('] := rfl
  have e2 : ")".data = [')'] := rfl
  have hdata : n.data ++ ([' ', '('] ++ ((Nat.repr i).data ++ [')']))
      = m.data ++ ([' ', '('] ++ ((Nat.repr j).data ++ [')'])) := by
    have h1 := congrArg String.data h
    simpa [fmtIndexed, String.data_append, e1, e2, List.append_assoc] using h1
  obtain ⟨hnm, hij⟩ := sep_digit_eq n.data m.data (Nat.repr i).data (Nat.repr j).data
    (repr_data_digits i) (repr_data_digits j) hdata
  exact ⟨String.ext hnm, repr_injective (String.ext hij)⟩

/-! ### Characterisation of the collision-resolution loop -/

theorem buildCount_go (l : List String) :
    ∀ (acc : String → Nat) (k : String),
      List.foldl (fun m n => fun x => if x = n then m n + 1 else m x) acc l k
        = acc k + List.count k l := by
  induction l with
  | nil =>
    intro acc k
    simp
  | cons r t ih =>
    intro acc k
    rw [List.foldl_cons, ih]
    by_cases h : k = r
    · subst h
      simp [List.count_cons]
      omega
    · simp [h, List.count_cons, Ne.symm h]

theorem buildCount_eq (raw : List String) (k : String) :
    buildCount raw k = List.count k raw := by
  have h := buildCount_go raw (fun _ => 0) k
  simpa [buildCount] using h

theorem buildDest_length (nc : String → Nat) :
    ∀ (f : String → Nat) (l : List String), (buildDest nc f l).length = l.length := by
  intro f l
  induction l generalizing f with
  | nil => rfl
  | cons r rs ih => simp [buildDest, ih]

theorem buildDest_get? (nc : String → Nat) :
    ∀ (rest seen : List String) (i : Nat) (h : i < rest.length),
      (buildDest nc (fun m => List.count m seen) rest).get? i
        = some (if nc (rest.get ⟨i, h⟩) > 1
                then fmtIndexed (rest.get ⟨i, h⟩)
                  (List.count (rest.get ⟨i, h⟩) seen
                    + List.count (rest.get ⟨i, h⟩) (rest.take (i + 1)))
                else rest.get ⟨i, h⟩) := by
  intro rest
  induction rest with
  | nil =>
    intro seen i h
    simp at h
  | cons r rs ih =>
    intro seen i h
    cases i with
    | zero =>
      simp only [buildDest, List.get?_eq_getElem?, List.getElem?_cons_zero, List.get_cons_zero]
      rw [List.take_succ_cons, List.take_zero]
      simp [List.count_singleton]
    | succ i' =>
      have hfun : (fun m => if m = r then List.count r seen + 1 else List.count m seen)
          = (fun m => List.count m (seen ++ [r])) := by
        funext m
        by_cases hm : m = r
        · subst hm
          simp [List.count_append, List.count_singleton]
        · simp [hm, List.count_append, List.count_singleton, Ne.symm hm]
      have hstep : (buildDest nc (fun m => List.count m seen) (r :: rs)).get? (i' + 1)
          = (buildDest nc (fun m => List.count m (seen ++ [r])) rs).get? i' := by
        simp only [buildDest, hfun, List.get?_eq_getElem?, List.getElem?_cons_succ]
      have hi' : i' < rs.length := by simpa using Nat.lt_of_succ_lt_succ h
      rw [hstep, ih (seen ++ [r]) i' hi']
      have hget : (r :: rs).get ⟨i' + 1, h⟩ = rs.get ⟨i', hi'⟩ := List.get_cons_succ
      rw [hget]
      have hAB : List.count (rs.get ⟨i', hi'⟩) (seen ++ [r])
            + List.count (rs.get ⟨i', hi'⟩) (rs.take (i' + 1))
          = List.count (rs.get ⟨i', hi'⟩) seen
            + List.count (rs.get ⟨i', hi'⟩) ((r :: rs).take (i' + 1 + 1)) := by
        rw [List.take_succ_cons, List.count_append, List.count_singleton, List.count_cons]
        omega
      rw [hAB]

theorem resolveNames_get? (raw : List String) (i : Nat) (h : i < raw.length) :
    (resolveNames raw).get? i
      = some (if 1 < List.count (raw.get ⟨i, h⟩) raw
              then fmtIndexed (raw.get ⟨i, h⟩)
                (List.count (raw.get ⟨i, h⟩) (raw.take (i + 1)))
              else raw.get ⟨i, h⟩) := by
  have h0 : (fun _ : String => 0) = (fun m => List.count m ([] : List String)) := by
    funext m
    simp
  have hcnt : buildCount raw = fun k => List.count k raw := funext (buildCount_eq raw)
  unfold resolveNames
  rw [hcnt, h0, buildDest_get? _ raw [] i h]
  simp

/-! ### Counting occurrences by position -/

theorem count_take_pos (l : List String) (i : Nat) (h : i < l.length) :
    1 ≤ List.count (l.get ⟨i, h⟩) (l.take (i + 1)) := by
  have hlen : i < (l.take (i + 1)).length := by
    simp [List.length_take]
    omega
  have hmem : l.get ⟨i, h⟩ ∈ l.take (i + 1) := by
    have hg : (l.take (i + 1)).get ⟨i, hlen⟩ = l.get ⟨i, h⟩ := by
      simp [List.get_eq_getElem, List.getElem_take]
    rw [← hg]
    exact List.get_mem _ _ _
  exact List.count_pos_iff.mpr hmem

theorem count_take_le (l : List String) (n : String) (i : Nat) :
    List.count n (l.take i) ≤ List.count n l :=
  (List.take_sublist i l).count_le n

theorem count_take_lt (l : List String) (i j : Nat) (hij : i < j) (hj : j < l.length) :
    List.count (l.get ⟨j, hj⟩) (l.take (i + 1))
      < List.count (l.get ⟨j, hj⟩) (l.take (j + 1)) := by
  have hsplit : l.take (j + 1) = l.take (i + 1) ++ (l.drop (i + 1)).take (j - i) := by
    rw [← List.take_add]
    congr 1
    omega
  have hlt : j - (i + 1) < ((l.drop (i + 1)).take (j - i)).length := by
    simp [List.length_take, List.length_drop]
    omega
  have hmem : l.get ⟨j, hj⟩ ∈ (l.drop (i + 1)).take (j - i) := by
    have hidx : i + 1 + (j - (i + 1)) = j := by omega
    have hg : ((l.drop (i + 1)).take (j - i)).get ⟨j - (i + 1), hlt⟩ = l.get ⟨j, hj⟩ := by
      simp [List.get_eq_getElem, List.getElem_take, List.getElem_drop, hidx]
    rw [← hg]
    exact List.get_mem _ _ _
  have hpos : 0 < List.count (l.get ⟨j, hj⟩) ((l.drop (i + 1)).take (j - i)) :=
    List.count_pos_iff.mpr hmem
  rw [hsplit, List.count_append]
  omega

theorem two_le_count (l : List String) (i j : Nat) (hij : i < j) (hj : j < l.length)
    (hi : i < l.length) (heq : l.get ⟨i, hi⟩ = l.get ⟨j, hj⟩) :
    2 ≤ List.count (l.get ⟨j, hj⟩) l := by
  have h1 : 1 ≤ List.count (l.get ⟨j, hj⟩) (l.take (i + 1)) := by
    rw [← heq]
    exact count_take_pos l i hi
  have h2 := count_take_lt l i j hij hj
  have h3 := count_take_le l (l.get ⟨j, hj⟩) (j + 1)
  omega

theorem resolveNames_nodup (raw : List String)
    (H : ∀ n ∈ raw, ∀ m ∈ raw, ∀ k ∈ List.range (List.count m raw + 1),
        List.count n raw = 1 → 1 < List.count m raw → 1 ≤ k → n ≠ fmtIndexed m k) :
    (resolveNames raw).Nodup := by
  rw [List.nodup_iff_get?_ne_get?]
  intro i j hij hjlen
  have hlen : (resolveNames raw).length = raw.length := buildDest_length _ _ _
  have hj : j < raw.length := by omega
  have hi : i < raw.length := by omega
  rw [resolveNames_get? raw i hi, resolveNames_get? raw j hj]
  intro heq
  rw [Option.some.injEq] at heq
  set n := raw.get ⟨i, hi⟩ with hns
  set m := raw.get ⟨j, hj⟩ with hms
  have hnmem : n ∈ raw := List.get_mem raw i hi
  have hmmem : m ∈ raw := List.get_mem raw j hj
  have hnpos : 0 < List.count n raw := List.count_pos_iff.mpr hnmem
  have hmpos : 0 < List.count m raw := List.count_pos_iff.mpr hmmem
  by_cases h1 : 1 < List.count n raw
  · by_cases h2 : 1 < List.count m raw
    · rw [if_pos h1, if_pos h2] at heq
      obtain ⟨hnm, hk⟩ := fmtIndexed_inj heq
      have hlt := count_take_lt raw i j hij hj
      rw [← hms] at hlt
      rw [hnm] at hk
      omega
    · rw [if_pos h1, if_neg h2] at heq
      have hm1 : List.count m raw = 1 := by omega
      have hki_le := count_take_le raw n (i + 1)
      have hki_pos := count_take_pos raw i hi
      exact H m hmmem n hnmem (List.count n (raw.take (i + 1)))
        (List.mem_range.mpr (by omega)) hm1 h1 hki_pos heq.symm
  · have hn1 : List.count n raw = 1 := by omega
    by_cases h2 : 1 < List.count m raw
    · rw [if_neg h1, if_pos h2] at heq
      have hkj_le := count_take_le raw m (j + 1)
      have hkj_pos := count_take_pos raw j hj
      exact H n hnmem m hmmem (List.count m (raw.take (j + 1)))
        (List.mem_range.mpr (by omega)) hn1 h2 hkj_pos heq
    · rw [if_neg h1, if_neg h2] at heq
      have h2le := two_le_count raw i j hij hj hi (by rw [← hns, ← hms]; exact heq)
      rw [← hms] at h2le
      omega

/-- Claim C1 (amended): provided no raw name occurring exactly once in the
batch coincides with the parenthesized-indexed form `m (k)` of a raw name
`m` occurring more than once (for an index `k` up to its count) — the
hypothesis `H` — the N destination filenames are pairwise distinct.
Unconditionally, the resolved list is positionally exact: a name occurring
once is emitted unchanged, and a name occurring more than once gets its
1-based occurrence index appended in body-list order; the spec's scenario
`Part, Part, Cylinder1` yields `Part (1).stl, Part (2).stl, Cylinder1.stl`. -/
theorem claim_collision_resolution (raw : List String)
    (H : ∀ n ∈ raw, ∀ m ∈ raw, ∀ k ∈ List.range (List.count m raw + 1),
        List.count n raw = 1 → 1 < List.count m raw → 1 ≤ k → n ≠ fmtIndexed m k) :
    (destinations raw).Nodup
    ∧ (resolveNames raw).length = raw.length
    ∧ (∀ i (h : i < raw.length),
        (resolveNames raw).get? i
          = some (if 1 < List.count (raw.get ⟨i, h⟩) raw
                  then fmtIndexed (raw.get ⟨i, h⟩)
                    (List.count (raw.get ⟨i, h⟩) (raw.take (i + 1)))
                  else raw.get ⟨i, h⟩))
    ∧ destinations (["Part", "Part", "Cylinder1"].map safe_filename)
        = ["Part (1).stl", "Part (2).stl", "Cylinder1.stl"] := by
  refine ⟨?_, buildDest_length _ _ _, fun i h => resolveNames_get? raw i h, by decide⟩
  have hinj : Function.Injective (fun f : String => f ++ ".stl") := by
    intro a b hab
    have h2 : a.data ++ ".stl".data = b.data ++ ".stl".data := by
      simpa [String.data_append] using congrArg String.data hab
    exact String.ext (List.append_cancel_right h2)
  exact (resolveNames_nodup raw H).map hinj

/-- Claim C1 counterexample: the batch of bodies named `Part`, `Part` and
`Part (1)` — each name fixed by sanitization — resolves to `Part (1).stl`,
`Part (2).stl`, `Part (1).stl`: the first and third destination coincide,
so the claim's unconditional pairwise-distinctness fails. -/
theorem claim_collision_counterexample :
    ["Part", "Part", "Part (1)"].map safe_filename = ["Part", "Part", "Part (1)"]
    ∧ destinations ["Part", "Part", "Part (1)"]
        = ["Part (1).stl", "Part (2).stl", "Part (1).stl"]
    ∧ ¬ (destinations ["Part", "Part", "Part (1)"]).Nodup :=
  ⟨by decide, by decide, by decide⟩

/-- Witness for C1 (amended) at the spec's scenario batch
`Part, Part, Cylinder1`. -/
theorem claim_collision_resolution_witness :
    (destinations ["Part", "Part", "Cylinder1"]).Nodup
    ∧ destinations (["Part", "Part", "Cylinder1"].map safe_filename)
        = ["Part (1).stl", "Part (2).stl", "Cylinder1.stl"] :=
  ⟨(claim_collision_resolution ["Part", "Part", "Cylinder1"] (by decide)).1,
   (claim_collision_resolution ["Part", "Part", "Cylinder1"] (by decide)).2.2.2⟩

end MultiMeshExport
